import Mathlib

/-! Verification of the todo-cli core (kcurtet/todo-cli): the due-date parsing
engine (`date_parser.rs`), the task ordering comparator and id-equality
(`task.rs`), and the task filter (`filter.rs`), shallowly embedded in Lean.

Modelling conventions:
* A calendar date is a civil triple `Ymd` (year, month, day).  Instants in
  results are represented by `LocalDT`: an absolute day number (days since
  1970-01-01, modelling chrono's `NaiveDate` day count) plus a time of day.
* `Local::now()` becomes an explicit `today : Ymd` parameter (the code reads
  the clock afresh at each stage, all within one invocation instant).
* The chrono-english natural-language stage is an external opaque capability;
  it becomes an explicit function parameter `nl`.
* chrono's `NaiveDate::parse_from_str` for the six fixed numeric formats is
  modelled as: split on the literal separator into exactly three decimal digit
  groups, assemble the fields in the format's order, and require a valid civil
  date (chrono validates via `from_ymd`).  Digit-width limits of chrono's
  numeric specifiers are not modelled; no claim depends on them.
* Rust machine integers become `Int`; the `as i32` / `as u32` casts in the
  month/year branches are modelled by explicit mod-2^32 wraps.
-/

namespace TodoCli

/-- Time of day (hour, minute, second). -/
structure Time where
  hour : Nat
  minute : Nat
  second : Nat
deriving DecidableEq

/-- End of day, 23:59:59 — the time-of-day attached by every `parse_date`
stage except the natural-language one. -/
def endOfDay : Time := ⟨23, 59, 59⟩

/-- A local date-time: `day` is the absolute day number (days since
1970-01-01), `time` the local time of day. -/
structure LocalDT where
  day : Int
  time : Time
deriving DecidableEq

/-- A civil calendar date, as read from the system clock. -/
structure Ymd where
  year : Int
  month : Int
  dayOfMonth : Int
deriving DecidableEq

/-- Gregorian leap-year rule, exactly as written in the months branch of
`parse_date`: divisible by 4, and not a century unless divisible by 400. -/
def isLeap (y : Int) : Bool :=
  y % 4 == 0 && (y % 100 != 0 || y % 400 == 0)

/-- Number of days in a month of a given year (0 for an invalid month).
Spec-side helper used to state clamping and validity. -/
def daysInMonth (y m : Int) : Int :=
  if m = 1 then 31 else if m = 2 then (if isLeap y then 29 else 28)
  else if m = 3 then 31 else if m = 4 then 30 else if m = 5 then 31
  else if m = 6 then 30 else if m = 7 then 31 else if m = 8 then 31
  else if m = 9 then 30 else if m = 10 then 31 else if m = 11 then 30
  else if m = 12 then 31 else 0

/-- Validity of a civil date, modelling chrono's `NaiveDate::from_ymd_opt`
returning `Some`: month and day in range, and the year inside chrono's
representable range (`MIN_YEAR = i32::MIN >> 13 = -262144`,
`MAX_YEAR = i32::MAX >> 13 = 262143`). -/
def validYmd (y m d : Int) : Bool :=
  decide (-262144 ≤ y ∧ y ≤ 262143 ∧ 1 ≤ m ∧ m ≤ 12 ∧ 1 ≤ d ∧ d ≤ daysInMonth y m)

/-- Absolute day number (days since 1970-01-01) of a civil date: the standard
civil-from-days algorithm, modelling chrono's internal day count. -/
def daysFromCivil (y m d : Int) : Int :=
  let y2 := if m ≤ 2 then y - 1 else y
  let era := y2 / 400
  let yoe := y2 - era * 400
  let mp := if 2 < m then m - 3 else m + 9
  let doy := (153 * mp + 2) / 5 + d - 1
  let doe := yoe * 365 + yoe / 4 - yoe / 100 + doy
  era * 146097 + doe - 719468

/-- Absolute day number of a clock value. -/
def dayNum (c : Ymd) : Int := daysFromCivil c.year c.month c.dayOfMonth

/-- Weekday index of an absolute day number, Monday = 0 .. Sunday = 6,
modelling chrono's `weekday().num_days_from_monday()` (1970-01-01 was a
Thursday, index 3). -/
def weekdayOfDays (d : Int) : Int := (d + 3) % 7

/-- ASCII lower-casing of one character, modelling `str::to_lowercase` on the
ASCII alphabet (all strings the program compares against are ASCII). -/
def lowerChar (c : Char) : Char :=
  if 65 ≤ c.toNat ∧ c.toNat ≤ 90 then Char.ofNat (c.toNat + 32) else c

/-- Whitespace test used by trimming (model of `char::is_whitespace` on the
whitespace the inputs can contain). -/
def isWs (c : Char) : Bool := c.isWhitespace

/-- Model of `str::trim`: drop whitespace from both ends. -/
def trimChars (l : List Char) : List Char :=
  ((l.dropWhile isWs).reverse.dropWhile isWs).reverse

/-- The normalization `parse_date` applies first:
`date_str.trim().to_lowercase()`. -/
def normalize (s : String) : List Char := (trimChars s.data).map lowerChar

theorem char_eq_of_toNat_eq {a b : Char} (h : a.toNat = b.toNat) : a = b :=
  Char.ext (UInt32.ext h)

theorem toNat_lowerChar (c : Char) :
    (lowerChar c).toNat =
      if 65 ≤ c.toNat ∧ c.toNat ≤ 90 then c.toNat + 32 else c.toNat := by
  unfold lowerChar
  split
  case isTrue h =>
    have hv : (c.toNat + 32).isValidChar := Or.inl (by omega)
    rw [Char.ofNat, dif_pos hv]
    rfl
  case isFalse h => rfl

theorem isWs_eq_false_of_toNat {x : Char} (h32 : x.toNat ≠ 32) (h9 : x.toNat ≠ 9)
    (h13 : x.toNat ≠ 13) (h10 : x.toNat ≠ 10) : isWs x = false := by
  have f : ∀ (d : Char) (n : Nat), d.toNat = n → x.toNat ≠ n → decide (x = d) = false := by
    intro d n hd hne
    exact decide_eq_false (fun he => hne (by rw [he, hd]))
  unfold isWs Char.isWhitespace
  rw [f ' ' 32 rfl h32, f (Char.ofNat 9) 9 rfl h9, f (Char.ofNat 13) 13 rfl h13,
    f (Char.ofNat 10) 10 rfl h10]
  rfl

theorem isWs_lowerChar (c : Char) : isWs (lowerChar c) = isWs c := by
  have ht := toNat_lowerChar c
  by_cases h : 65 ≤ c.toNat ∧ c.toNat ≤ 90
  · rw [if_pos h] at ht
    rw [isWs_eq_false_of_toNat (x := lowerChar c) (by omega) (by omega) (by omega) (by omega)]
    rw [isWs_eq_false_of_toNat (x := c) (by omega) (by omega) (by omega) (by omega)]
  · rw [if_neg h] at ht
    rw [char_eq_of_toNat_eq ht]

theorem lowerChar_idem (c : Char) : lowerChar (lowerChar c) = lowerChar c := by
  have ht := toNat_lowerChar c
  have unf : ∀ x : Char, lowerChar x =
      if 65 ≤ x.toNat ∧ x.toNat ≤ 90 then Char.ofNat (x.toNat + 32) else x :=
    fun x => rfl
  by_cases h : 65 ≤ c.toNat ∧ c.toNat ≤ 90
  · rw [if_pos h] at ht
    rw [unf (lowerChar c), if_neg (by omega)]
  · have hc : lowerChar c = c := by rw [unf c, if_neg h]
    rw [hc]
    exact hc

/-! ### Numeric parsing helpers (models of str::parse and chrono format parsing) -/

/-- ASCII decimal digit test. -/
def isDigitChar (c : Char) : Bool := decide (48 ≤ c.toNat ∧ c.toNat ≤ 57)

/-- Value of a (non-empty, all-digit) character group read in base 10. -/
def digitsToNat (l : List Char) : Nat :=
  l.foldl (fun a c => a * 10 + (c.toNat - 48)) 0

/-- A non-empty all-digit group, read as a natural number. -/
def parseDigits (l : List Char) : Option Int :=
  if l ≠ [] ∧ l.all isDigitChar = true then some (digitsToNat l) else none

/-- Model of `str::parse::<i64>`: optional sign, then digits, in i64 range. -/
def parseI64 (l : List Char) : Option Int :=
  let raw : Option Int :=
    match l with
    | [] => none
    | c :: rest =>
      if c = Char.ofNat 45 then (parseDigits rest).map (fun v => -v)
      else if c = Char.ofNat 43 then parseDigits rest
      else parseDigits l
  raw.bind (fun v => if -(2 ^ 63) ≤ v ∧ v ≤ 2 ^ 63 - 1 then some v else none)

/-- Split into the three numeric fields of a fixed-format date: the input must
consist of exactly three non-empty all-digit groups separated by `sep`. -/
def threeFields (sep : Char) (l : List Char) : Option (Int × Int × Int) :=
  match l.splitOn sep with
  | [a, b, c] =>
    if a ≠ [] ∧ a.all isDigitChar = true ∧ b ≠ [] ∧ b.all isDigitChar = true ∧
        c ≠ [] ∧ c.all isDigitChar = true then
      some (digitsToNat a, digitsToNat b, digitsToNat c)
    else none
  | _ => none

/-- Assemble a civil date, modelling chrono's validity check. -/
def mkYmd (y m d : Int) : Option Ymd :=
  if validYmd y m d then some ⟨y, m, d⟩ else none

/-- Model of `NaiveDate::parse_from_str(s, "%Y-%m-%d")` (the ISO stage). -/
def parseIso (l : List Char) : Option Ymd :=
  (threeFields (Char.ofNat 45) l).bind (fun t => mkYmd t.1 t.2.1 t.2.2)

/-- Model of parsing with `"%m/%d/%Y"`. -/
def parseMdySlash (l : List Char) : Option Ymd :=
  (threeFields (Char.ofNat 47) l).bind (fun t => mkYmd t.2.2 t.1 t.2.1)

/-- Model of parsing with `"%d/%m/%Y"`. -/
def parseDmySlash (l : List Char) : Option Ymd :=
  (threeFields (Char.ofNat 47) l).bind (fun t => mkYmd t.2.2 t.2.1 t.1)

/-- Model of parsing with `"%Y/%m/%d"`. -/
def parseYmdSlash (l : List Char) : Option Ymd :=
  (threeFields (Char.ofNat 47) l).bind (fun t => mkYmd t.1 t.2.1 t.2.2)

/-- Model of parsing with `"%m-%d-%Y"`. -/
def parseMdyDash (l : List Char) : Option Ymd :=
  (threeFields (Char.ofNat 45) l).bind (fun t => mkYmd t.2.2 t.1 t.2.1)

/-- Model of parsing with `"%d-%m-%Y"`. -/
def parseDmyDash (l : List Char) : Option Ymd :=
  (threeFields (Char.ofNat 45) l).bind (fun t => mkYmd t.2.2 t.2.1 t.1)

/-- The fallback format loop of `parse_date`: the five fixed formats tried in
the source's order, first success wins. -/
def parseFixedFormats (l : List Char) : Option Ymd :=
  match parseMdySlash l with
  | some c => some c
  | none => match parseDmySlash l with
    | some c => some c
    | none => match parseYmdSlash l with
      | some c => some c
      | none => match parseMdyDash l with
        | some c => some c
        | none => parseDmyDash l

/-! ### The `in N unit` stage (source: parse_in_n_unit and word_to_number) -/

/-- Model of the `word_to_number` helper: small English number words. -/
def word_to_number (w : List Char) : Option Int :=
  let wl := w.map lowerChar
  if wl = "one".data then some 1 else if wl = "two".data then some 2
  else if wl = "three".data then some 3 else if wl = "four".data then some 4
  else if wl = "five".data then some 5 else if wl = "six".data then some 6
  else if wl = "seven".data then some 7 else if wl = "eight".data then some 8
  else if wl = "nine".data then some 9 else if wl = "ten".data then some 10
  else none

/-- The known unit words of the `in N unit` stage. -/
def unitWords : List (List Char) :=
  ["day".data, "days".data, "week".data, "weeks".data,
   "month".data, "months".data, "year".data, "years".data]

/-- Model of `parse_in_n_unit`: trim, strip the `"in "` prefix, split the rest
at the first space into count and unit, parse the count as an i64 or a number
word, and require the trimmed unit to be a known unit word. -/
def parse_in_n_unit (l : List Char) : Option (Int × List Char) :=
  let t := trimChars l
  if t.take 3 = "in ".data then
    let rest := t.drop 3
    let num := rest.takeWhile (fun c => c ≠ ' ')
    match rest.dropWhile (fun c => c ≠ ' ') with
    | [] => none
    | _ :: unitRaw =>
      match (parseI64 num).or (word_to_number num) with
      | none => none
      | some n =>
        let unit := trimChars unitRaw
        if unit ∈ unitWords then some (n, unit) else none
  else none

/-! ### The `in N unit` target-date computation (source: parse_date, stage 5) -/

/-- Wrap of an `i64` value cast `as i32` (two's complement). -/
def wrap32 (n : Int) : Int := (n + 2 ^ 31) % 2 ^ 32 - 2 ^ 31

/-- Wrap of an `i32` value cast `as u32` (two's complement reinterpretation). -/
def wrapU32 (n : Int) : Int := n % 2 ^ 32

/-- The `while m > 12 { y += 1; m -= 12 }` month-normalization loop. -/
def normYM (y m : Int) : Int × Int :=
  if 12 < m then normYM (y + 1) (m - 12) else (y, m)
termination_by m.toNat
decreasing_by
  have : 12 < m := by assumption
  omega

/-- The last-day table written inline in the months branch (note the
catch-all `_ => 28` arm). -/
def codeLastDay (y m : Int) : Int :=
  if m = 1 then 31
  else if m = 2 then (if isLeap y then 29 else 28)
  else if m = 3 then 31 else if m = 4 then 30 else if m = 5 then 31
  else if m = 6 then 30 else if m = 7 then 31 else if m = 8 then 31
  else if m = 9 then 30 else if m = 10 then 31 else if m = 11 then 30
  else if m = 12 then 31 else 28

/-- The `"month" | "months"` branch of the unit dispatch: add `n` months (the
i32 sum `now.month() as i32 + n as i32` wraps two's-complement on overflow, as
in a release build), normalize the month, clamp the day to the inline last-day
table, and fall back to `now` when `from_ymd_opt` rejects the result. -/
def monthsTarget (now : Ymd) (n : Int) : Ymd :=
  let m0 := wrap32 (now.month + wrap32 n)
  let ym := normYM now.year m0
  let lastDay := codeLastDay ym.1 ym.2
  let d := min now.dayOfMonth lastDay
  let mu := wrapU32 ym.2
  if validYmd ym.1 mu d then ⟨ym.1, mu, d⟩ else now

/-- The `"year" | "years"` branch: same month and day in year `y + n` (the
i32 sum `now.year() + n as i32` wraps two's-complement on overflow, as in a
release build), falling back to `now` when `from_ymd_opt` rejects the result.
-/
def yearsTarget (now : Ymd) (n : Int) : Ymd :=
  let y := wrap32 (now.year + wrap32 n)
  if validYmd y now.month now.dayOfMonth then ⟨y, now.month, now.dayOfMonth⟩ else now

/-- The full unit dispatch of stage 5, producing the absolute day number of
the target date (the `_ => now` arm mirrors the source's unreachable default).
-/
def inUnitDay (now : Ymd) (n : Int) (unit : List Char) : Int :=
  if unit = "day".data ∨ unit = "days".data then dayNum now + n
  else if unit = "week".data ∨ unit = "weeks".data then dayNum now + n * 7
  else if unit = "month".data ∨ unit = "months".data then dayNum (monthsTarget now n)
  else if unit = "year".data ∨ unit = "years".data then dayNum (yearsTarget now n)
  else dayNum now

/-! ### The weekday fallback stage (source: parse_date, stage 7) -/

/-- The weekday keyword table: full names and 3-letter abbreviations with
their Monday=0 indices, as matched in the source's fallback arm. -/
def weekdayIndex (l : List Char) : Option Int :=
  if l = "monday".data ∨ l = "mon".data then some 0
  else if l = "tuesday".data ∨ l = "tue".data then some 1
  else if l = "wednesday".data ∨ l = "wed".data then some 2
  else if l = "thursday".data ∨ l = "thu".data then some 3
  else if l = "friday".data ∨ l = "fri".data then some 4
  else if l = "saturday".data ∨ l = "sat".data then some 5
  else if l = "sunday".data ∨ l = "sun".data then some 6
  else none

/-- `days_ahead` as computed in the source: `target - current` when
`target >= current`, otherwise `7 - current + target`. -/
def daysAhead (current target : Int) : Int :=
  if current ≤ target then target - current else 7 - current + target

/-- The quote character used around the echoed input in the error message. -/
def quoteChar : Char := Char.ofNat 39

/-- The `DateParseError` message built when every stage fails. -/
def errMsg (l : List Char) : List Char :=
  "Unable to parse date: ".data ++ [quoteChar] ++ l ++ [quoteChar] ++
    ". Try formats like: YYYY-MM-DD, today, tomorrow, monday, etc.".data

/-! ### parse_date (source: date_parser.rs, lines 21-155) -/

/-- The `parse_date` pipeline after normalization.  `nl` is the opaque
chrono-english capability (stage 6), `today` the clock value; the stages and
their order mirror the source exactly. -/
def parseCore (nl : List Char → Option LocalDT) (today : Ymd) (l : List Char) :
    Except (List Char) LocalDT :=
  if l = "today".data then .ok ⟨dayNum today, endOfDay⟩
  else if l = "tomorrow".data then .ok ⟨dayNum today + 1, endOfDay⟩
  else match parseIso l with
  | some c => .ok ⟨dayNum c, endOfDay⟩
  | none => match parseFixedFormats l with
    | some c => .ok ⟨dayNum c, endOfDay⟩
    | none => match parse_in_n_unit l with
      | some nu => .ok ⟨inUnitDay today nu.1 nu.2, endOfDay⟩
      | none => match nl l with
        | some dt => .ok dt
        | none => match weekdayIndex l with
          | some tgt =>
            .ok ⟨dayNum today + daysAhead (weekdayOfDays (dayNum today)) tgt, endOfDay⟩
          | none => .error (errMsg l)

/-- `parse_date` itself: trim, lowercase, then run the stage pipeline. -/
def parse_date (nl : List Char → Option LocalDT) (today : Ymd) (s : String) :
    Except (List Char) LocalDT :=
  parseCore nl today (normalize s)

/-! ### parse_date_from_words (source: date_parser.rs, lines 158-202) -/

/-- `window.join(" ")`. -/
def joinSpace (w : List String) : String := String.intercalate " " w

/-- The single-token allow-list tested after a size-1 window parses. -/
def allowedSingle (s : String) : Bool :=
  s == "today" || s == "tomorrow" ||
  s == "monday" || s == "mon" || s == "tuesday" || s == "tue" ||
  s == "wednesday" || s == "wed" || s == "thursday" || s == "thu" ||
  s == "friday" || s == "fri" || s == "saturday" || s == "sat" ||
  s == "sunday" || s == "sun"

/-- Model of `slice::windows(n)`: the contiguous runs of `n` tokens, left to
right (empty when the slice is shorter than `n`). -/
def windows (n : Nat) : List α → List (List α)
  | [] => []
  | a :: tl => if n ≤ (a :: tl).length then (a :: tl).take n :: windows n tl else []

/-- The body of the inner `for window in words.windows(window_size)` loop,
threading the running `best` value through the window list. -/
def scanWindows (p : String → Option LocalDT) (ws : Nat) :
    List (List String) → Option (Nat × LocalDT) → Option (Nat × LocalDT)
  | [], best => best
  | w :: rest, best =>
    match p (joinSpace w) with
    | none => scanWindows p ws rest best
    | some dt =>
      if ws = 1 && !allowedSingle (joinSpace w) then scanWindows p ws rest best
      else
        match best with
        | none => scanWindows p ws rest (some (ws, dt))
        | some b =>
          if b.1 < ws then scanWindows p ws rest (some (ws, dt))
          else scanWindows p ws rest best

/-- The outer `for window_size in (1..=4).rev()` loop. -/
def scanSizes (p : String → Option LocalDT) (words : List String) :
    List Nat → Option (Nat × LocalDT) → Option (Nat × LocalDT)
  | [], best => best
  | ws :: rest, best => scanSizes p words rest (scanWindows p ws (windows ws words) best)

/-- The window-scanning heuristic, generic in the date parser it calls. -/
def parse_date_from_wordsGen (p : String → Option LocalDT) (words : List String) :
    Option LocalDT :=
  (scanSizes p words [4, 3, 2, 1] none).map (fun b => b.2)

/-- `parse_date_from_words` as in the source: the scan instantiated with
`parse_date` (under a given natural-language capability and clock). -/
def parse_date_from_words (nl : List Char → Option LocalDT) (today : Ymd)
    (words : List String) : Option LocalDT :=
  parse_date_from_wordsGen (fun s => (parse_date nl today s).toOption) words

/-! ### Task, ordering comparator and filter (source: task.rs, filter.rs) -/

/-- A task, as read by the core.  Timestamps (`due_date`, `created_at`,
`completed_at`) are modelled as integer instants ordered chronologically. -/
structure Task where
  id : Nat
  description : String
  priority : Option Nat
  due_date : Option Int
  tags : List String
  completed : Bool
  created_at : Int
  completed_at : Option Int
deriving DecidableEq

/-- Rust's `PartialEq for Task`: equality by id only. -/
def taskBeq (a b : Task) : Bool := a.id == b.id

/-- Three-way comparison of a linearly ordered value (Rust `Ord::cmp` on
integers). -/
def cmpVal {α : Type} [LinearOrder α] (a b : α) : Ordering :=
  if a < b then .lt else if a = b then .eq else .gt

/-- The completion stage of the comparator: incomplete before completed. -/
def cmpCompleted (a b : Bool) : Ordering :=
  match a, b with
  | false, true => .lt
  | true, false => .gt
  | _, _ => .eq

/-- The option stages of the comparator: `Some` sorts before `None`, two
`Some`s compare by the inner comparison (equal inner values fall through). -/
def cmpOpt {α : Type} (c : α → α → Ordering) : Option α → Option α → Ordering
  | some a, some b => c a b
  | some _, none => .lt
  | none, some _ => .gt
  | none, none => .eq

/-- `Ord for Task` (task.rs, lines 87-123): completion, then due date, then
priority, then creation time, each stage falling through on a tie. -/
def compare_tasks (a b : Task) : Ordering :=
  (cmpCompleted a.completed b.completed).then
    ((cmpOpt cmpVal a.due_date b.due_date).then
      ((cmpOpt cmpVal a.priority b.priority).then
        (cmpVal a.created_at b.created_at)))

/-- `Task::matches_tag_filter` (task.rs, lines 56-70). -/
def matches_tag_filter (t : Task) (includeTag excludeTag : Option String) : Bool :=
  match includeTag with
  | some tag => if !(t.tags.any (fun s => s == tag)) then false else
    match excludeTag with
    | some tag2 => if t.tags.any (fun s => s == tag2) then false else true
    | none => true
  | none =>
    match excludeTag with
    | some tag2 => if t.tags.any (fun s => s == tag2) then false else true
    | none => true

/-- `filter_tasks` (filter.rs, lines 7-25). -/
def filter_tasks (tasks : List Task) (includeTag excludeTag : Option String)
    (showCompleted : Bool) : List Task :=
  tasks.filter (fun t =>
    if !showCompleted && t.completed then false
    else matches_tag_filter t includeTag excludeTag)

/-! ## Comparator laws -/

/-- The laws a three-way comparator needs for the lexicographic composition
arguments: swap-antisymmetry, transitivity of `lt`, and substitutivity of
`eq`. -/
def CmpLawful {α : Type} (c : α → α → Ordering) : Prop :=
  (∀ a b, (c a b).swap = c b a) ∧
  (∀ a b d, c a b = .lt → c b d = .lt → c a d = .lt) ∧
  (∀ a b, c a b = .eq → ∀ x, c a x = c b x)

theorem cmpVal_eq_lt {α : Type} [LinearOrder α] {a b : α} :
    cmpVal a b = .lt ↔ a < b := by
  unfold cmpVal
  split_ifs with h1 h2
  · exact iff_of_true rfl h1
  · exact iff_of_false (by decide) (by rw [h2]; exact lt_irrefl b)
  · exact iff_of_false (by decide) h1

theorem cmpVal_eq_eq {α : Type} [LinearOrder α] {a b : α} :
    cmpVal a b = .eq ↔ a = b := by
  unfold cmpVal
  split_ifs with h1 h2
  · exact iff_of_false (by decide) (ne_of_lt h1)
  · exact iff_of_true rfl h2
  · exact iff_of_false (by decide) h2

theorem cmpVal_swap {α : Type} [LinearOrder α] (a b : α) :
    (cmpVal a b).swap = cmpVal b a := by
  unfold cmpVal
  rcases lt_trichotomy a b with h | h | h
  · rw [if_pos h, if_neg (lt_asymm h), if_neg (ne_of_gt h)]
    rfl
  · subst h
    rw [if_neg (lt_irrefl a), if_pos rfl]
    rfl
  · rw [if_neg (lt_asymm h), if_neg (ne_of_gt h), if_pos h]
    rfl

theorem cmpVal_lawful {α : Type} [LinearOrder α] :
    CmpLawful (fun a b : α => cmpVal a b) :=
  ⟨cmpVal_swap,
   fun _ _ _ h1 h2 => cmpVal_eq_lt.mpr (lt_trans (cmpVal_eq_lt.mp h1) (cmpVal_eq_lt.mp h2)),
   fun _ _ h _ => by rw [cmpVal_eq_eq.mp h]⟩

theorem cmpCompleted_lawful : CmpLawful cmpCompleted :=
  ⟨by decide, by decide, by decide⟩

theorem cmpOpt_lawful {α : Type} {c : α → α → Ordering} (h : CmpLawful c) :
    CmpLawful (cmpOpt c) := by
  obtain ⟨hswap, htrans, hcongr⟩ := h
  refine ⟨fun a b => ?_, fun a b d h1 h2 => ?_, fun a b h x => ?_⟩
  · match a, b with
    | none, none => rfl
    | none, some _ => rfl
    | some _, none => rfl
    | some u, some v => exact hswap u v
  · match a, b, d with
    | none, none, _ => exact absurd h1 (by simp [cmpOpt])
    | none, some _, _ => exact absurd h1 (by simp [cmpOpt])
    | some _, none, none => rfl
    | some _, none, some _ => exact absurd h2 (by simp [cmpOpt])
    | some _, some _, none => rfl
    | some u, some v, some w => exact htrans u v w h1 h2
  · match a, b with
    | none, none => rfl
    | none, some _ => exact absurd h (by simp [cmpOpt])
    | some _, none => exact absurd h (by simp [cmpOpt])
    | some u, some v =>
      match x with
      | none => rfl
      | some w => exact hcongr u v h w

theorem ordering_then_lt {x y : Ordering} :
    x.then y = .lt ↔ x = .lt ∨ (x = .eq ∧ y = .lt) := by
  cases x <;> simp [Ordering.then]

theorem ordering_then_eq {x y : Ordering} :
    x.then y = .eq ↔ x = .eq ∧ y = .eq := by
  cases x <;> simp [Ordering.then]

theorem ordering_then_swap (x y : Ordering) :
    (x.then y).swap = x.swap.then y.swap := by
  cases x <;> rfl

theorem then_lawful {α : Type} {c1 c2 : α → α → Ordering}
    (h1 : CmpLawful c1) (h2 : CmpLawful c2) :
    CmpLawful (fun a b => (c1 a b).then (c2 a b)) := by
  obtain ⟨h1s, h1t, h1c⟩ := h1
  obtain ⟨h2s, h2t, h2c⟩ := h2
  -- right-substitutivity of eq, derived from swap and left-substitutivity
  have h1cr : ∀ a b, c1 a b = .eq → ∀ x, c1 x a = c1 x b := by
    intro a b h x
    have hx := h1c a b h x
    rw [← h1s a x, ← h1s b x, hx]
  refine ⟨fun a b => ?_, fun a b d hab hbd => ?_, fun a b h x => ?_⟩
  · show ((c1 a b).then (c2 a b)).swap = (c1 b a).then (c2 b a)
    rw [ordering_then_swap, h1s, h2s]
  · show (c1 a d).then (c2 a d) = .lt
    have hab2 : (c1 a b).then (c2 a b) = .lt := hab
    have hbd2 : (c1 b d).then (c2 b d) = .lt := hbd
    rw [ordering_then_lt] at hab2 hbd2 ⊢
    rcases hab2 with hx | ⟨hx, hy⟩ <;> rcases hbd2 with hz | ⟨hz, hw⟩
    · exact Or.inl (h1t a b d hx hz)
    · exact Or.inl (by rw [h1cr b d hz a] at hx; exact hx)
    · exact Or.inl (by rw [h1c a b hx d]; exact hz)
    · exact Or.inr ⟨by rw [h1c a b hx d]; exact hz, h2t a b d hy hw⟩
  · show (c1 a x).then (c2 a x) = (c1 b x).then (c2 b x)
    have h3 : (c1 a b).then (c2 a b) = .eq := h
    rw [ordering_then_eq] at h3
    rw [h1c a b h3.1 x, h2c a b h3.2 x]

theorem pullback_lawful {α β : Type} {c : β → β → Ordering} (f : α → β)
    (h : CmpLawful c) : CmpLawful (fun a b => c (f a) (f b)) := by
  obtain ⟨hs, ht, hc⟩ := h
  exact ⟨fun a b => hs (f a) (f b),
    fun a b d h1 h2 => ht (f a) (f b) (f d) h1 h2,
    fun a b h x => hc (f a) (f b) h (f x)⟩

theorem ordering_then_lt_of_lt {x : Ordering} (y : Ordering) (h : x = .lt) :
    x.then y = .lt := by
  subst h; rfl

theorem ordering_then_lt_of_eq {x y : Ordering} (h : x = .eq) (h2 : y = .lt) :
    x.then y = .lt := by
  subst h; exact h2

theorem cmpCompleted_self (x : Bool) : cmpCompleted x x = .eq := by cases x <;> rfl

theorem cmpCompleted_eq_iff {x y : Bool} : cmpCompleted x y = .eq ↔ x = y := by
  cases x <;> cases y <;> simp [cmpCompleted]

theorem cmpVal_self {α : Type} [LinearOrder α] (a : α) : cmpVal a a = .eq :=
  cmpVal_eq_eq.mpr rfl

theorem cmpOpt_self {α : Type} {c : α → α → Ordering} (hc : ∀ u, c u u = .eq)
    (x : Option α) : cmpOpt c x x = .eq := by
  cases x with
  | none => rfl
  | some u => exact hc u

theorem cmpOpt_eq_iff {α : Type} {c : α → α → Ordering}
    (hc : ∀ u v, c u v = .eq ↔ u = v) {x y : Option α} :
    cmpOpt c x y = .eq ↔ x = y := by
  cases x <;> cases y <;> simp [cmpOpt]
  exact hc _ _

theorem compare_tasks_lawful : CmpLawful compare_tasks := by
  have e : compare_tasks = fun a b =>
      ((fun a b : Task => cmpCompleted a.completed b.completed) a b).then
        ((fun a b : Task =>
          ((fun a b : Task => cmpOpt cmpVal a.due_date b.due_date) a b).then
            ((fun a b : Task =>
              ((fun a b : Task => cmpOpt cmpVal a.priority b.priority) a b).then
                ((fun a b : Task => cmpVal a.created_at b.created_at) a b)) a b)) a b) := rfl
  rw [e]
  exact then_lawful (pullback_lawful _ cmpCompleted_lawful)
    (then_lawful (pullback_lawful _ (cmpOpt_lawful cmpVal_lawful))
      (then_lawful (pullback_lawful _ (cmpOpt_lawful cmpVal_lawful))
        (pullback_lawful _ cmpVal_lawful)))

/-- Equality in all fields the comparator looks at (distinct from id
equality `taskBeq`). -/
def comparedFieldsEq (a b : Task) : Prop :=
  a.completed = b.completed ∧ a.due_date = b.due_date ∧
  a.priority = b.priority ∧ a.created_at = b.created_at

theorem compare_tasks_eq_iff {a b : Task} :
    compare_tasks a b = .eq ↔ comparedFieldsEq a b := by
  unfold compare_tasks comparedFieldsEq
  rw [ordering_then_eq, ordering_then_eq, ordering_then_eq]
  rw [cmpCompleted_eq_iff]
  rw [cmpOpt_eq_iff (fun u v => cmpVal_eq_eq)]
  rw [cmpOpt_eq_iff (fun u v => cmpVal_eq_eq)]
  rw [cmpVal_eq_eq]

/-! ## Claim C3 -/

/-- C3: `compare_tasks` is the four-stage tie-break comparator stopping at the
first differentiating stage: (1) incomplete before completed regardless of
other fields; (2) among equal completion, a due date before none, and earlier
due date first regardless of priority; (3) among still-tied tasks, a priority
before none, and smaller priority first; (4) remaining ties broken by earlier
creation timestamp. -/
theorem c3_comparator_stages :
    (∀ a b : Task, a.completed = false → b.completed = true →
      compare_tasks a b = .lt) ∧
    (∀ a b : Task, a.completed = b.completed → ∀ d1, a.due_date = some d1 →
      b.due_date = none → compare_tasks a b = .lt) ∧
    (∀ a b : Task, a.completed = b.completed → ∀ d1 d2, a.due_date = some d1 →
      b.due_date = some d2 → d1 < d2 → compare_tasks a b = .lt) ∧
    (∀ a b : Task, a.completed = b.completed → a.due_date = b.due_date →
      ∀ p1, a.priority = some p1 → b.priority = none → compare_tasks a b = .lt) ∧
    (∀ a b : Task, a.completed = b.completed → a.due_date = b.due_date →
      ∀ p1 p2, a.priority = some p1 → b.priority = some p2 → p1 < p2 →
      compare_tasks a b = .lt) ∧
    (∀ a b : Task, a.completed = b.completed → a.due_date = b.due_date →
      a.priority = b.priority → a.created_at < b.created_at →
      compare_tasks a b = .lt) := by
  refine ⟨?_, ?_, ?_, ?_, ?_, ?_⟩
  · intro a b h1 h2
    unfold compare_tasks
    rw [h1, h2]
    rfl
  · intro a b hc d1 h1 h2
    unfold compare_tasks
    refine ordering_then_lt_of_eq (by rw [hc]; exact cmpCompleted_self _) ?_
    refine ordering_then_lt_of_lt _ ?_
    rw [h1, h2]
    rfl
  · intro a b hc d1 d2 h1 h2 hlt
    unfold compare_tasks
    refine ordering_then_lt_of_eq (by rw [hc]; exact cmpCompleted_self _) ?_
    refine ordering_then_lt_of_lt _ ?_
    rw [h1, h2]
    exact cmpVal_eq_lt.mpr hlt
  · intro a b hc hd p1 h1 h2
    unfold compare_tasks
    refine ordering_then_lt_of_eq (by rw [hc]; exact cmpCompleted_self _) ?_
    refine ordering_then_lt_of_eq (by rw [hd]; exact cmpOpt_self cmpVal_self _) ?_
    refine ordering_then_lt_of_lt _ ?_
    rw [h1, h2]
    rfl
  · intro a b hc hd p1 p2 h1 h2 hlt
    unfold compare_tasks
    refine ordering_then_lt_of_eq (by rw [hc]; exact cmpCompleted_self _) ?_
    refine ordering_then_lt_of_eq (by rw [hd]; exact cmpOpt_self cmpVal_self _) ?_
    refine ordering_then_lt_of_lt _ ?_
    rw [h1, h2]
    exact cmpVal_eq_lt.mpr hlt
  · intro a b hc hd hp hlt
    unfold compare_tasks
    refine ordering_then_lt_of_eq (by rw [hc]; exact cmpCompleted_self _) ?_
    refine ordering_then_lt_of_eq (by rw [hd]; exact cmpOpt_self cmpVal_self _) ?_
    refine ordering_then_lt_of_eq (by rw [hp]; exact cmpOpt_self cmpVal_self _) ?_
    exact cmpVal_eq_lt.mpr hlt

/-- Witness for C3: the six stages evaluated on concrete task pairs. -/
theorem c3_comparator_stages_witness :
    compare_tasks ⟨1, "", some 5, some 10, [], false, 0, none⟩
        ⟨2, "", some 1, some 1, [], true, 0, none⟩ = .lt ∧
    compare_tasks ⟨1, "", none, some 3, [], false, 0, none⟩
        ⟨2, "", some 1, none, [], false, 0, none⟩ = .lt ∧
    compare_tasks ⟨1, "", some 5, some 3, [], false, 0, none⟩
        ⟨2, "", some 1, some 4, [], false, 0, none⟩ = .lt ∧
    compare_tasks ⟨1, "", some 2, some 3, [], false, 0, none⟩
        ⟨2, "", none, some 3, [], false, 0, none⟩ = .lt ∧
    compare_tasks ⟨1, "", some 2, some 3, [], false, 0, none⟩
        ⟨2, "", some 4, some 3, [], false, 0, none⟩ = .lt ∧
    compare_tasks ⟨1, "", some 2, some 3, [], false, 5, none⟩
        ⟨2, "", some 2, some 3, [], false, 9, none⟩ = .lt := by
  obtain ⟨s1, s2, s3, s4, s5, s6⟩ := c3_comparator_stages
  refine ⟨s1 _ _ rfl rfl, s2 _ _ rfl 3 rfl rfl, s3 _ _ rfl 3 4 rfl rfl (by norm_num),
    s4 _ _ rfl rfl 2 rfl rfl, s5 _ _ rfl rfl 2 4 rfl rfl (by norm_num),
    s6 _ _ rfl rfl rfl (by norm_num)⟩

/-! ## Claim C6 -/

/-- C6: the task comparison is a strict total order — for all tasks exactly
one of `a < b`, `a` equal to `b` in all compared fields, `a > b` holds;
comparison swaps under argument exchange; `lt` is transitive; and comparator
equality is a notion separate from id equality (`taskBeq`), in both
directions. -/
theorem c6_strict_total_order :
    (∀ a b : Task,
      (compare_tasks a b = .lt ∧ ¬comparedFieldsEq a b ∧ compare_tasks a b ≠ .gt) ∨
      (compare_tasks a b ≠ .lt ∧ comparedFieldsEq a b ∧ compare_tasks a b ≠ .gt) ∨
      (compare_tasks a b ≠ .lt ∧ ¬comparedFieldsEq a b ∧ compare_tasks a b = .gt)) ∧
    (∀ a b : Task, compare_tasks a b = .eq ↔ comparedFieldsEq a b) ∧
    (∀ a b : Task, (compare_tasks a b).swap = compare_tasks b a) ∧
    (∀ a b d : Task, compare_tasks a b = .lt → compare_tasks b d = .lt →
      compare_tasks a d = .lt) ∧
    (∃ a b : Task, compare_tasks a b = .eq ∧ taskBeq a b = false) ∧
    (∃ a b : Task, taskBeq a b = true ∧ compare_tasks a b ≠ .eq) := by
  obtain ⟨hswap, htrans, _⟩ := compare_tasks_lawful
  refine ⟨?_, fun a b => compare_tasks_eq_iff, hswap, htrans, ?_, ?_⟩
  · intro a b
    cases hx : compare_tasks a b
    · exact Or.inl ⟨rfl, fun hf => by
        rw [compare_tasks_eq_iff.mpr hf] at hx; exact Ordering.noConfusion hx,
        fun hf => Ordering.noConfusion hf⟩
    · exact Or.inr (Or.inl ⟨fun hf => Ordering.noConfusion hf,
        compare_tasks_eq_iff.mp hx, fun hf => Ordering.noConfusion hf⟩)
    · exact Or.inr (Or.inr ⟨fun hf => Ordering.noConfusion hf, fun hf => by
        rw [compare_tasks_eq_iff.mpr hf] at hx; exact Ordering.noConfusion hx, rfl⟩)
  · refine ⟨⟨0, "", none, none, [], false, 0, none⟩,
      ⟨1, "", none, none, [], false, 0, none⟩, ?_, by decide⟩
    exact compare_tasks_eq_iff.mpr ⟨rfl, rfl, rfl, rfl⟩
  · refine ⟨⟨0, "", none, none, [], false, 0, none⟩,
      ⟨0, "", none, none, [], false, 1, none⟩, by decide, ?_⟩
    intro hf
    have := compare_tasks_eq_iff.mp hf
    exact absurd this.2.2.2 (by norm_num)

/-- Witness for C6: transitivity applied at concrete tasks, with both `lt`
hypotheses discharged by evaluation. -/
theorem c6_strict_total_order_witness :
    compare_tasks ⟨0, "", none, none, [], false, 0, none⟩
      ⟨0, "", none, none, [], false, 2, none⟩ = .lt :=
  (c6_strict_total_order.2.2.2.1) ⟨0, "", none, none, [], false, 0, none⟩
    ⟨0, "", none, none, [], false, 1, none⟩ ⟨0, "", none, none, [], false, 2, none⟩
    (by decide) (by decide)

/-! ## Claim C5 -/

/-- The filter predicate as the spec states it: a conjunction of the
completion condition and the two tag conditions (exact string membership). -/
def filterSpecPred (includeTag excludeTag : Option String) (showCompleted : Bool)
    (t : Task) : Bool :=
  (showCompleted || !t.completed) &&
  (match includeTag with
   | some g => t.tags.contains g
   | none => true) &&
  (match excludeTag with
   | some g => !(t.tags.contains g)
   | none => true)

theorem contains_eq_any (l : List String) (g : String) :
    (l.any fun s => s == g) = l.contains g := by
  rw [Bool.eq_iff_iff, List.any_beq']
  rw [Bool.eq_iff_iff.mp (List.contains_eq_any_beq l g), List.any_beq]

theorem filter_pred_eq (includeTag excludeTag : Option String) (showCompleted : Bool)
    (t : Task) :
    (if !showCompleted && t.completed then false
     else matches_tag_filter t includeTag excludeTag) =
      filterSpecPred includeTag excludeTag showCompleted t := by
  unfold matches_tag_filter filterSpecPred
  cases showCompleted <;> cases hc : t.completed <;>
    cases includeTag <;> cases excludeTag <;>
    simp [contains_eq_any] <;>
    cases hx : (t.tags).contains _ <;> simp_all

/-- C5: `filter_tasks` returns exactly the sub-sequence, in original order, of
tasks satisfying the conjunction (show_completed or not completed) AND
(include tag absent or contained, exact match) AND (exclude tag absent or not
contained); when include and exclude are the same string the result is empty
for every input. -/
theorem c5_filter_characterization :
    (∀ (tasks : List Task) (includeTag excludeTag : Option String)
        (showCompleted : Bool),
      filter_tasks tasks includeTag excludeTag showCompleted =
        tasks.filter (filterSpecPred includeTag excludeTag showCompleted)) ∧
    (∀ (tasks : List Task) (tag : String) (showCompleted : Bool),
      filter_tasks tasks (some tag) (some tag) showCompleted = []) := by
  constructor
  · intro tasks includeTag excludeTag showCompleted
    unfold filter_tasks
    exact List.filter_congr (fun t _ => filter_pred_eq includeTag excludeTag showCompleted t)
  · intro tasks tag showCompleted
    unfold filter_tasks
    rw [List.filter_eq_nil_iff]
    intro t _
    simp only [Bool.not_eq_true]
    split
    · rfl
    · unfold matches_tag_filter
      cases hx : (t.tags).any fun s => s == tag <;> simp [hx]

/-! ## Window-scan analysis (for C4 and C7) -/

/-- What one window contributes: the parse result, tagged with the window
size, filtered through the single-token allow-list. -/
def candidate (p : String → Option LocalDT) (ws : Nat) (w : List String) :
    Option (Nat × LocalDT) :=
  match p (joinSpace w) with
  | none => none
  | some dt => if ws = 1 && !allowedSingle (joinSpace w) then none else some (ws, dt)

/-- All surviving parses at one window size, in scan order. -/
def sizeBlock (p : String → Option LocalDT) (words : List String) (ws : Nat) :
    List (Nat × LocalDT) :=
  (windows ws words).filterMap (candidate p ws)

/-- All surviving parses, in scan order: sizes 4 down to 1, left to right
within a size. -/
def successList (p : String → Option LocalDT) (words : List String) :
    List (Nat × LocalDT) :=
  sizeBlock p words 4 ++ (sizeBlock p words 3 ++ (sizeBlock p words 2 ++ sizeBlock p words 1))

theorem scanWindows_frozen (p : String → Option LocalDT) (ws : Nat)
    (l : List (List String)) (b : Nat × LocalDT) (hle : ws ≤ b.1) :
    scanWindows p ws l (some b) = some b := by
  induction l with
  | nil => rfl
  | cons w rest ih =>
    show scanWindows p ws (w :: rest) (some b) = some b
    unfold scanWindows
    cases hp : p (joinSpace w) with
    | none => exact ih
    | some dt =>
      simp only []
      split
      · exact ih
      · rw [if_neg (by omega : ¬ b.1 < ws)]
        exact ih

theorem scanWindows_none (p : String → Option LocalDT) (ws : Nat)
    (l : List (List String)) :
    scanWindows p ws l none = (l.filterMap (candidate p ws)).head? := by
  induction l with
  | nil => rfl
  | cons w rest ih =>
    unfold scanWindows
    cases hp : p (joinSpace w) with
    | none =>
      rw [List.filterMap_cons]
      have hc : candidate p ws w = none := by unfold candidate; rw [hp]
      rw [hc]
      exact ih
    | some dt =>
      simp only []
      rw [List.filterMap_cons]
      have hc := hp
      split
      case isTrue hif =>
        have : candidate p ws w = none := by unfold candidate; rw [hp]; simp only [if_pos hif]
        rw [this]
        exact ih
      case isFalse hif =>
        have : candidate p ws w = some (ws, dt) := by
          unfold candidate; rw [hp]; simp only [if_neg hif]
        rw [this]
        exact scanWindows_frozen p ws rest (ws, dt) (le_refl ws)

theorem mem_sizeBlock {p : String → Option LocalDT} {words : List String} {ws : Nat}
    {x : Nat × LocalDT} (h : x ∈ sizeBlock p words ws) : x.1 = ws := by
  unfold sizeBlock at h
  obtain ⟨w, _, hc⟩ := List.mem_filterMap.mp h
  unfold candidate at hc
  rcases hp : p (joinSpace w) with _ | dt <;> rw [hp] at hc
  · exact Option.noConfusion hc
  · replace hc : (if (decide (ws = 1) && !allowedSingle (joinSpace w)) = true
        then (none : Option (Nat × LocalDT)) else some (ws, dt)) = some x := hc
    split at hc
    · exact Option.noConfusion hc
    · rw [← Option.some.inj hc]

theorem scanSizes_frozen (p : String → Option LocalDT) (words : List String)
    (ss : List Nat) (b : Nat × LocalDT) (hle : ∀ ws ∈ ss, ws ≤ b.1) :
    scanSizes p words ss (some b) = some b := by
  induction ss with
  | nil => rfl
  | cons ws rest ih =>
    unfold scanSizes
    rw [scanWindows_frozen p ws _ b (hle ws (List.mem_cons_self ws rest))]
    exact ih (fun u hu => hle u (List.mem_cons_of_mem ws hu))

theorem head_append_cases {α : Type} (l1 l2 : List α) :
    (l1 ++ l2).head? = match l1.head? with
      | some x => some x
      | none => l2.head? := by
  cases l1 <;> rfl

theorem scanSizes_blocks (p : String → Option LocalDT) (words : List String)
    (ss : List Nat) (hsort : List.Pairwise (fun a b => b ≤ a) ss) :
    scanSizes p words ss none = ((ss.map (sizeBlock p words)).flatten).head? := by
  induction ss with
  | nil => rfl
  | cons ws rest ih =>
    obtain ⟨hhead, htail⟩ := List.pairwise_cons.mp hsort
    show scanSizes p words rest (scanWindows p ws (windows ws words) none) = _
    rw [scanWindows_none]
    rw [List.map_cons, List.flatten_cons]
    change scanSizes p words rest (sizeBlock p words ws).head? = _
    cases hb : (sizeBlock p words ws).head? with
    | none =>
      have hnil : sizeBlock p words ws = [] := by
        cases hl : sizeBlock p words ws with
        | nil => rfl
        | cons a t => rw [hl] at hb; exact Option.noConfusion hb
      rw [hnil, List.nil_append]
      exact ih htail
    | some x =>
      have hxmem : x ∈ sizeBlock p words ws := by
        cases hl : sizeBlock p words ws with
        | nil => rw [hl] at hb; exact Option.noConfusion hb
        | cons a t =>
          rw [hl] at hb
          rw [← Option.some.inj hb]
          exact List.mem_cons_self a t
      have hx1 : x.1 = ws := mem_sizeBlock hxmem
      rw [scanSizes_frozen p words rest x (fun u hu => by rw [hx1]; exact hhead u hu)]
      rw [head_append_cases, hb]

theorem successList_eq_join (p : String → Option LocalDT) (words : List String) :
    (([4, 3, 2, 1].map (sizeBlock p words)).flatten) = successList p words := by
  unfold successList
  simp [List.flatten]

theorem block_pairwise (p : String → Option LocalDT) (words : List String) (ws : Nat) :
    List.Pairwise (fun a b : Nat × LocalDT => b.1 ≤ a.1) (sizeBlock p words ws) := by
  apply List.pairwise_of_forall_mem_list
  intro a ha b hb
  rw [mem_sizeBlock ha, mem_sizeBlock hb]

theorem successList_pairwise (p : String → Option LocalDT) (words : List String) :
    List.Pairwise (fun a b : Nat × LocalDT => b.1 ≤ a.1) (successList p words) := by
  unfold successList
  rw [List.pairwise_append]
  refine ⟨block_pairwise p words 4, ?_, ?_⟩
  · rw [List.pairwise_append]
    refine ⟨block_pairwise p words 3, ?_, ?_⟩
    · rw [List.pairwise_append]
      refine ⟨block_pairwise p words 2, block_pairwise p words 1, ?_⟩
      intro a ha b hb
      rw [mem_sizeBlock ha, mem_sizeBlock hb]
      norm_num
    · intro a ha b hb
      rw [mem_sizeBlock ha]
      rcases List.mem_append.mp hb with h | h <;>
        rw [mem_sizeBlock h] <;> norm_num
  · intro a ha b hb
    rw [mem_sizeBlock ha]
    rcases List.mem_append.mp hb with h | h
    · rw [mem_sizeBlock h]; norm_num
    · rcases List.mem_append.mp h with h2 | h2 <;> rw [mem_sizeBlock h2] <;> norm_num

theorem sorted_head_max {l : List (Nat × LocalDT)}
    (hp : List.Pairwise (fun a b : Nat × LocalDT => b.1 ≤ a.1) l) {x : Nat × LocalDT}
    (hx : x ∈ l) {y : Nat × LocalDT} (hy : l.head? = some y) : x.1 ≤ y.1 := by
  cases l with
  | nil => exact absurd hx (List.not_mem_nil x)
  | cons a t =>
    have ha : a = y := Option.some.inj hy
    subst ha
    rcases List.mem_cons.mp hx with h | h
    · rw [h]
    · exact (List.pairwise_cons.mp hp).1 x h

/-! ## Claim C4 -/

/-- C4: `parse_date_from_words` scans windows of sizes 4 down to 1, joining
each window with single spaces and attempting date interpretation; among all
windows that successfully parse (and survive the single-token allow-list) it
returns the result of the largest window size, and among ties at that size the
first window encountered in the scan — i.e. the head of the scan-ordered
success list, whose head has maximal size among all successes. -/
theorem c4_extract_phrase (nl : List Char → Option LocalDT) (today : Ymd)
    (words : List String) :
    parse_date_from_words nl today words =
      (successList (fun s => (parse_date nl today s).toOption) words).head?.map
        (fun b => b.2) ∧
    (∀ x ∈ successList (fun s => (parse_date nl today s).toOption) words,
      ∀ y, (successList (fun s => (parse_date nl today s).toOption) words).head? =
        some y → x.1 ≤ y.1) := by
  constructor
  · unfold parse_date_from_words parse_date_from_wordsGen
    rw [scanSizes_blocks _ words [4, 3, 2, 1] (by decide), successList_eq_join]
  · intro x hx y hy
    exact sorted_head_max (successList_pairwise _ words) hx hy

/-- Witness for C4: the size-maximality part applied to a concrete scan where
the success list is computed explicitly. -/
theorem c4_extract_phrase_witness :
    parse_date_from_words (fun _ => none) ⟨2025, 10, 12⟩ ["friday"] =
      (successList (fun s =>
        (parse_date (fun _ => none) ⟨2025, 10, 12⟩ s).toOption) ["friday"]).head?.map
        (fun b => b.2) ∧
    (1, (⟨20378, endOfDay⟩ : LocalDT)).1 ≤
      (1, (⟨20378, endOfDay⟩ : LocalDT)).1 :=
  ⟨(c4_extract_phrase (fun _ => none) ⟨2025, 10, 12⟩ ["friday"]).1,
   (c4_extract_phrase (fun _ => none) ⟨2025, 10, 12⟩ ["friday"]).2
     (1, ⟨20378, endOfDay⟩) (by decide) (1, ⟨20378, endOfDay⟩) (by decide)⟩

/-! ## Stage-skipping lemmas for parse_date -/

theorem parseCore_after5 (nl : List Char → Option LocalDT) (today : Ymd)
    (l : List Char) (h1 : ¬ l = "today".data) (h2 : ¬ l = "tomorrow".data)
    (h3 : parseIso l = none) (h4 : parseFixedFormats l = none)
    (h5 : parse_in_n_unit l = none) :
    parseCore nl today l = match nl l with
      | some dt => .ok dt
      | none => match weekdayIndex l with
        | some tgt =>
          .ok ⟨dayNum today + daysAhead (weekdayOfDays (dayNum today)) tgt, endOfDay⟩
        | none => .error (errMsg l) := by
  unfold parseCore
  rw [if_neg h1, if_neg h2]
  simp only [h3, h4, h5]

theorem parseCore_inUnit (nl : List Char → Option LocalDT) (today : Ymd)
    (l : List Char) (n : Int) (u : List Char)
    (h1 : ¬ l = "today".data) (h2 : ¬ l = "tomorrow".data)
    (h3 : parseIso l = none) (h4 : parseFixedFormats l = none)
    (h5 : parse_in_n_unit l = some (n, u)) :
    parseCore nl today l = .ok ⟨inUnitDay today n u, endOfDay⟩ := by
  unfold parseCore
  rw [if_neg h1, if_neg h2]
  simp only [h3, h4, h5]

/-! ## Claim C7 -/

/-- C7: a single-token window is accepted only when the token is exactly one
of the keywords today/tomorrow, a full weekday name, or a 3-letter
abbreviation: a lone token outside the allow-list never produces a match even
when it parses (stated generically over the parser), `["friday"]` yields a
result under every natural-language capability and clock, and `["5"]` yields
none. -/
theorem c7_single_token_allowlist :
    (∀ (p : String → Option LocalDT) (tok : String), allowedSingle tok = false →
      parse_date_from_wordsGen p [tok] = none) ∧
    (∀ (nl : List Char → Option LocalDT) (today : Ymd) (tok : String),
      allowedSingle tok = false → parse_date_from_words nl today [tok] = none) ∧
    (∀ (nl : List Char → Option LocalDT) (today : Ymd),
      (parse_date_from_words nl today ["friday"]).isSome = true) ∧
    (∀ (nl : List Char → Option LocalDT) (today : Ymd),
      parse_date_from_words nl today ["5"] = none) := by
  have hgen : ∀ (p : String → Option LocalDT) (tok : String),
      allowedSingle tok = false → parse_date_from_wordsGen p [tok] = none := by
    intro p tok hallow
    unfold parse_date_from_wordsGen
    rw [scanSizes_blocks _ [tok] [4, 3, 2, 1] (by decide), successList_eq_join]
    have hcand : candidate p 1 [tok] = none := by
      unfold candidate
      cases hp : p (joinSpace [tok]) with
      | none => rfl
      | some dt =>
        show (if (decide (1 = 1) && !allowedSingle (joinSpace [tok])) = true
            then (none : Option (Nat × LocalDT)) else some (1, dt)) = none
        rw [show joinSpace [tok] = tok from rfl, hallow]
        rfl
    have hnil : successList p [tok] = [] := by
      unfold successList sizeBlock
      rw [show windows 4 [tok] = ([] : List (List String)) from rfl,
        show windows 3 [tok] = ([] : List (List String)) from rfl,
        show windows 2 [tok] = ([] : List (List String)) from rfl,
        show windows 1 [tok] = [[tok]] from rfl]
      simp [hcand]
    rw [hnil]
    rfl
  refine ⟨hgen, fun nl today tok h => hgen _ tok h, ?_, ?_⟩
  · intro nl today
    unfold parse_date_from_words parse_date_from_wordsGen
    rw [scanSizes_blocks _ ["friday"] [4, 3, 2, 1] (by decide), successList_eq_join]
    have hpd : ∃ dt, (parse_date nl today "friday").toOption = some dt := by
      unfold parse_date
      rw [show normalize "friday" = "friday".data from by decide]
      rw [parseCore_after5 nl today _ (by decide) (by decide) (by decide) (by decide)
        (by decide)]
      cases hnl : nl ("friday".data) with
      | some dt => exact ⟨dt, rfl⟩
      | none =>
        rw [show weekdayIndex ("friday".data) = some 4 from by decide]
        exact ⟨_, rfl⟩
    obtain ⟨dt, hdt⟩ := hpd
    have hcand : candidate (fun s => (parse_date nl today s).toOption) 1 ["friday"] =
        some (1, dt) := by
      unfold candidate
      simp only [show joinSpace ["friday"] = "friday" from rfl, hdt]
      rfl
    have hsl : successList (fun s => (parse_date nl today s).toOption) ["friday"] =
        [(1, dt)] := by
      unfold successList sizeBlock
      rw [show windows 4 ["friday"] = ([] : List (List String)) from rfl,
        show windows 3 ["friday"] = ([] : List (List String)) from rfl,
        show windows 2 ["friday"] = ([] : List (List String)) from rfl,
        show windows 1 ["friday"] = [["friday"]] from rfl]
      simp [hcand]
    rw [hsl]
    rfl
  · intro nl today
    exact hgen _ "5" (by decide)

/-- Witness for C7: the allow-list rejection applied at the concrete token
`"5"`, and the `["friday"]` acceptance at a concrete clock. -/
theorem c7_single_token_allowlist_witness :
    parse_date_from_words (fun _ => none) ⟨2025, 10, 12⟩ ["5"] = none ∧
    (parse_date_from_words (fun _ => none) ⟨2025, 10, 12⟩ ["friday"]).isSome = true :=
  ⟨c7_single_token_allowlist.2.1 (fun _ => none) ⟨2025, 10, 12⟩ "5" (by decide),
   c7_single_token_allowlist.2.2.1 (fun _ => none) ⟨2025, 10, 12⟩⟩

/-! ## Claim C1 -/

/-- The bare weekday names (full and 3-letter) with their Monday=0 indices. -/
def weekdayTable : List (String × Int) :=
  [("monday", 0), ("mon", 0), ("tuesday", 1), ("tue", 1), ("wednesday", 2),
   ("wed", 2), ("thursday", 3), ("thu", 3), ("friday", 4), ("fri", 4),
   ("saturday", 5), ("sat", 5), ("sunday", 6), ("sun", 6)]

theorem weekday_math (d t : Int) (h0 : 0 ≤ t) (h7 : t < 7) :
    weekdayOfDays (d + daysAhead (weekdayOfDays d) t) = t ∧
    (weekdayOfDays d = t → daysAhead (weekdayOfDays d) t = 0) ∧
    0 ≤ daysAhead (weekdayOfDays d) t ∧
    (∀ e : Int, d ≤ e → e < d + daysAhead (weekdayOfDays d) t →
      weekdayOfDays e ≠ t) := by
  unfold weekdayOfDays daysAhead
  set r := (d + 3) % 7 with hrdef
  have hr0 : 0 ≤ r := Int.emod_nonneg _ (by norm_num)
  have hr7 : r < 7 := Int.emod_lt_of_pos _ (by norm_num)
  have hdm : 7 * ((d + 3) / 7) + r = d + 3 := Int.ediv_add_emod (d + 3) 7
  set q := (d + 3) / 7 with hqdef
  have hkey : ∀ u : Int, (t + 7 * u) % 7 = t := by
    intro u
    rw [Int.add_mul_emod_self_left]
    exact Int.emod_eq_of_lt h0 h7
  refine ⟨?_, ?_, ?_, ?_⟩
  · split_ifs with hc
    · rw [show d + (t - r) + 3 = t + 7 * q by omega]
      exact hkey q
    · rw [show d + (7 - r + t) + 3 = t + 7 * (q + 1) by omega]
      exact hkey (q + 1)
  · intro h
    split_ifs <;> omega
  · split_ifs <;> omega
  · intro e he1 he2 heq
    have hsm : 7 * ((e + 3) / 7) + (e + 3) % 7 = e + 3 := Int.ediv_add_emod _ _
    rw [heq] at hsm
    split_ifs at he2 <;> omega

theorem c1_case (s : String) (t : Int) (nl : List Char → Option LocalDT) (today : Ymd)
    (hnorm : normalize s = s.data)
    (h1 : ¬ s.data = "today".data) (h2 : ¬ s.data = "tomorrow".data)
    (h3 : parseIso s.data = none) (h4 : parseFixedFormats s.data = none)
    (h5 : parse_in_n_unit s.data = none) (h7 : weekdayIndex s.data = some t)
    (ht0 : 0 ≤ t) (ht7 : t < 7) (hnl : nl (normalize s) = none) :
    parse_date nl today s =
      .ok ⟨dayNum today + daysAhead (weekdayOfDays (dayNum today)) t, endOfDay⟩ ∧
    weekdayOfDays (dayNum today + daysAhead (weekdayOfDays (dayNum today)) t) = t ∧
    0 ≤ daysAhead (weekdayOfDays (dayNum today)) t ∧
    (weekdayOfDays (dayNum today) = t →
      parse_date nl today s = .ok ⟨dayNum today, endOfDay⟩) ∧
    (∀ e : Int, dayNum today ≤ e →
      e < dayNum today + daysAhead (weekdayOfDays (dayNum today)) t →
      weekdayOfDays e ≠ t) := by
  rw [hnorm] at hnl
  have hpd : parse_date nl today s =
      .ok ⟨dayNum today + daysAhead (weekdayOfDays (dayNum today)) t, endOfDay⟩ := by
    unfold parse_date
    rw [hnorm, parseCore_after5 nl today _ h1 h2 h3 h4 h5, hnl, h7]
  obtain ⟨m1, m2, m3, m4⟩ := weekday_math (dayNum today) t ht0 ht7
  refine ⟨hpd, m1, m3, ?_, m4⟩
  intro hc
  rw [hpd, m2 hc, add_zero]

/-- C1: every bare weekday name (full or 3-letter) resolves, when the opaque
natural-language stage does not claim it, to the next occurrence of that
weekday on-or-after the current date, at 23:59:59; in particular, when today
IS that weekday the result is today (0 days ahead, not 7). -/
theorem c1_weekday_fallback :
    ∀ s t, (s, t) ∈ weekdayTable →
    ∀ (nl : List Char → Option LocalDT) (today : Ymd), nl (normalize s) = none →
    parse_date nl today s =
      .ok ⟨dayNum today + daysAhead (weekdayOfDays (dayNum today)) t, endOfDay⟩ ∧
    weekdayOfDays (dayNum today + daysAhead (weekdayOfDays (dayNum today)) t) = t ∧
    0 ≤ daysAhead (weekdayOfDays (dayNum today)) t ∧
    (weekdayOfDays (dayNum today) = t →
      parse_date nl today s = .ok ⟨dayNum today, endOfDay⟩) ∧
    (∀ e : Int, dayNum today ≤ e →
      e < dayNum today + daysAhead (weekdayOfDays (dayNum today)) t →
      weekdayOfDays e ≠ t) := by
  intro s t hmem nl today hnl
  fin_cases hmem <;>
    exact c1_case _ _ nl today (by decide) (by decide) (by decide) (by decide)
      (by decide) (by decide) (by decide) (by decide) (by decide) hnl

/-- Witness for C1: the fallback applied to `"sunday"` on a Sunday
(2025-10-12): the result is that same day. -/
theorem c1_weekday_fallback_witness :
    parse_date (fun _ => none) ⟨2025, 10, 12⟩ "sunday" =
      .ok ⟨dayNum ⟨2025, 10, 12⟩, endOfDay⟩ :=
  (c1_weekday_fallback "sunday" 6 (by decide) (fun _ => none) ⟨2025, 10, 12⟩
    rfl).2.2.2.1 (by decide)

/-! ## Claim C2 -/

theorem wrap32_eq {n : Int} (h0 : -(2 ^ 31) ≤ n) (h1 : n < 2 ^ 31) : wrap32 n = n := by
  unfold wrap32
  rw [Int.emod_eq_of_lt (by omega) (by omega)]
  omega

theorem normYM_spec (y m : Int) :
    1 ≤ m →
      1 ≤ (normYM y m).2 ∧ (normYM y m).2 ≤ 12 ∧
      12 * (normYM y m).1 + (normYM y m).2 = 12 * y + m := by
  induction y, m using normYM.induct with
  | case1 y m hlt ih =>
    intro h
    rw [normYM, if_pos hlt]
    obtain ⟨i1, i2, i3⟩ := ih (by omega)
    exact ⟨i1, i2, by omega⟩
  | case2 y m hge =>
    intro h
    rw [normYM, if_neg hge]
    exact ⟨h, by omega, by ring⟩

theorem codeLastDay_eq (y m : Int) (h1 : 1 ≤ m) (h2 : m ≤ 12) :
    codeLastDay y m = daysInMonth y m := by
  have hm : m = 1 ∨ m = 2 ∨ m = 3 ∨ m = 4 ∨ m = 5 ∨ m = 6 ∨ m = 7 ∨ m = 8 ∨
      m = 9 ∨ m = 10 ∨ m = 11 ∨ m = 12 := by omega
  rcases hm with rfl | rfl | rfl | rfl | rfl | rfl | rfl | rfl | rfl | rfl | rfl | rfl <;>
    rfl

theorem daysInMonth_bounds (y m : Int) (h1 : 1 ≤ m) (h2 : m ≤ 12) :
    28 ≤ daysInMonth y m ∧ daysInMonth y m ≤ 31 := by
  have hm : m = 1 ∨ m = 2 ∨ m = 3 ∨ m = 4 ∨ m = 5 ∨ m = 6 ∨ m = 7 ∨ m = 8 ∨
      m = 9 ∨ m = 10 ∨ m = 11 ∨ m = 12 := by omega
  rcases hm with rfl | rfl | rfl | rfl | rfl | rfl | rfl | rfl | rfl | rfl | rfl | rfl <;>
    unfold daysInMonth <;> norm_num <;> split_ifs <;> norm_num

/-- The months branch, characterized: for a valid clock date, `0 ≤ n`, and a
target month whose year stays inside chrono's representable range (`hcap`),
the target is the calendar normalization of `month + n` with the day clamped
to the true last day of the target month (Gregorian rule), and it is a valid
date, so the `unwrap_or(now)` fallback does not fire.  (Under `hcap` and the
clock's own year bounds, `n` is at most about 6.3 million, so both i32 casts
are the identity.) -/
theorem monthsTarget_spec (today : Ymd) (n : Int)
    (hv : validYmd today.year today.month today.dayOfMonth = true)
    (h0 : 0 ≤ n)
    (hcap : 12 * today.year + today.month + n ≤ 12 * 262143 + 12) :
    ∃ y1 m1 : Int,
      monthsTarget today n = ⟨y1, m1, min today.dayOfMonth (daysInMonth y1 m1)⟩ ∧
      1 ≤ m1 ∧ m1 ≤ 12 ∧
      12 * y1 + m1 = 12 * today.year + today.month + n ∧
      validYmd y1 m1 (min today.dayOfMonth (daysInMonth y1 m1)) = true := by
  have hv2 := of_decide_eq_true hv
  obtain ⟨hyLo, hyHi, hm1, hm2, hd1, hd2⟩ := hv2
  have hnsmall : n ≤ 6291455 := by omega
  unfold monthsTarget
  dsimp only
  rw [@wrap32_eq n (by omega) (by omega),
    @wrap32_eq (today.month + n) (by omega) (by omega)]
  obtain ⟨n1, n2, n3⟩ := normYM_spec today.year (today.month + n) (by omega)
  set y1 := (normYM today.year (today.month + n)).1 with hy1
  set m1 := (normYM today.year (today.month + n)).2 with hm1def
  have hylo : -262144 ≤ y1 := by omega
  have hyhi : y1 ≤ 262143 := by omega
  refine ⟨y1, m1, ?_, n1, n2, by omega, ?_⟩
  · have hlast : codeLastDay y1 m1 = daysInMonth y1 m1 := codeLastDay_eq y1 m1 n1 n2
    have hbounds := daysInMonth_bounds y1 m1 n1 n2
    have hwrap : wrapU32 m1 = m1 := by
      unfold wrapU32
      exact Int.emod_eq_of_lt (by omega) (by norm_num; omega)
    rw [hlast, hwrap]
    rw [if_pos]
    apply decide_eq_true
    exact ⟨hylo, hyhi, n1, n2, by omega, min_le_right _ _⟩
  · have hbounds := daysInMonth_bounds y1 m1 n1 n2
    apply decide_eq_true
    exact ⟨hylo, hyhi, n1, n2, by omega, min_le_right _ _⟩

/-- When the target month's year exceeds chrono's representable range, the
months branch's `from_ymd_opt` returns `None` and `unwrap_or(now)` yields the
clock date unchanged: no clamping to the target month happens.  (`n` is
bounded so that the i32 casts are the identity; beyond that bound the i32 sum
itself wraps and the clamped target is not produced either.) -/
theorem monthsTarget_overflow (today : Ymd) (n : Int)
    (hv : validYmd today.year today.month today.dayOfMonth = true)
    (h0 : 0 ≤ n) (h1 : n ≤ 2 ^ 31 - 13)
    (hover : 12 * 262143 + 12 < 12 * today.year + today.month + n) :
    monthsTarget today n = today := by
  have hv2 := of_decide_eq_true hv
  obtain ⟨hyLo, hyHi, hm1, hm2, hd1, hd2⟩ := hv2
  unfold monthsTarget
  dsimp only
  rw [@wrap32_eq n (by omega) (by omega),
    @wrap32_eq (today.month + n) (by omega) (by omega)]
  obtain ⟨n1, n2, n3⟩ := normYM_spec today.year (today.month + n) (by omega)
  set y1 := (normYM today.year (today.month + n)).1 with hy1
  set m1 := (normYM today.year (today.month + n)).2 with hm1def
  have hybad : 262143 < y1 := by omega
  rw [if_neg]
  intro hcon
  have hcon2 := of_decide_eq_true hcon
  omega

/-- Counterexample for C2: running `"in 1 year"` on 2024-02-29, the code
returns 2024-02-29 itself (the clock date, via `unwrap_or(now)`), which
precedes every day of the target year 2025 — not a clamped valid date in the
target year as the claim states. -/
theorem c2_counterexample :
    parse_date (fun _ => none) ⟨2024, 2, 29⟩ "in 1 year" =
      .ok ⟨daysFromCivil 2024 2 29, endOfDay⟩ ∧
    daysFromCivil 2024 2 29 < daysFromCivil 2025 1 1 := by
  constructor
  · rfl
  · decide

/-- C2 (amended): the `"in N month(s)"` stage performs calendar arithmetic
that clamps the day-of-month to the last valid day of the target month using
the Gregorian leap-year rule (`"in 1 month"` on Jan 31 yields the last day of
February of that year), provided the target month's year stays inside
chrono's representable range; when it does not, `from_ymd_opt` fails and the
result falls back to the current date unchanged.  The `"in N year(s)"` stage
does NOT clamp at all — when the target `(year+N, month, day)` is invalid
(e.g. Feb 29 to a non-leap year) the result also falls back to the current
date unchanged. -/
theorem c2_month_year_arithmetic :
    (∀ (today : Ymd) (n : Int),
      validYmd today.year today.month today.dayOfMonth = true →
      0 ≤ n → 12 * today.year + today.month + n ≤ 12 * 262143 + 12 →
      ∃ y1 m1 : Int,
        monthsTarget today n = ⟨y1, m1, min today.dayOfMonth (daysInMonth y1 m1)⟩ ∧
        1 ≤ m1 ∧ m1 ≤ 12 ∧
        12 * y1 + m1 = 12 * today.year + today.month + n ∧
        validYmd y1 m1 (min today.dayOfMonth (daysInMonth y1 m1)) = true) ∧
    (∀ (nl : List Char → Option LocalDT) (y : Int),
      -262144 ≤ y → y ≤ 262143 →
      parse_date nl ⟨y, 1, 31⟩ "in 1 month" =
        .ok ⟨daysFromCivil y 2 (if isLeap y then 29 else 28), endOfDay⟩) ∧
    (∀ (today : Ymd) (n : Int),
      validYmd today.year today.month today.dayOfMonth = true →
      0 ≤ n → n ≤ 2 ^ 31 - 13 →
      12 * 262143 + 12 < 12 * today.year + today.month + n →
      monthsTarget today n = today) ∧
    (∀ (nl : List Char → Option LocalDT) (today : Ymd),
      validYmd today.year today.month today.dayOfMonth = true →
      validYmd (today.year + 1) today.month today.dayOfMonth = false →
      parse_date nl today "in 1 year" = .ok ⟨dayNum today, endOfDay⟩) := by
  refine ⟨monthsTarget_spec, ?_, monthsTarget_overflow, ?_⟩
  · intro nl y hyLo hyHi
    have hv : validYmd y 1 31 = true := by
      apply decide_eq_true
      refine ⟨hyLo, hyHi, by norm_num, by norm_num, by norm_num, ?_⟩
      show (31 : Int) ≤ daysInMonth y 1
      rw [show daysInMonth y 1 = 31 from rfl]
    obtain ⟨y1, m1, he, hb1, hb2, heq, hvv⟩ :=
      monthsTarget_spec ⟨y, 1, 31⟩ 1 hv (by norm_num)
        (by show 12 * y + 1 + 1 ≤ 12 * 262143 + 12; omega)
    have heq2 : 12 * y1 + m1 = 12 * y + 1 + 1 := heq
    have hm1 : m1 = 2 := by omega
    have hy1 : y1 = y := by omega
    rw [hm1, hy1] at he
    have he2 : monthsTarget ⟨y, 1, 31⟩ 1 = ⟨y, 2, min 31 (daysInMonth y 2)⟩ := he
    have hdim : daysInMonth y 2 = if isLeap y then 29 else 28 := rfl
    have hmin : min (31 : Int) (daysInMonth y 2) = if isLeap y then 29 else 28 := by
      rw [hdim]
      split_ifs <;> norm_num
    unfold parse_date
    rw [show normalize "in 1 month" = "in 1 month".data from by decide]
    rw [parseCore_inUnit nl _ _ 1 ("month".data) (by decide) (by decide) (by decide)
      (by decide) (by decide)]
    have hiu : inUnitDay ⟨y, 1, 31⟩ 1 ("month".data) =
        dayNum (monthsTarget ⟨y, 1, 31⟩ 1) := by
      unfold inUnitDay
      rw [if_neg (by decide), if_neg (by decide), if_pos (by decide)]
    rw [hiu, he2]
    show (Except.ok ⟨daysFromCivil y 2 (min 31 (daysInMonth y 2)), endOfDay⟩ :
      Except (List Char) LocalDT) =
        Except.ok ⟨daysFromCivil y 2 (if isLeap y then 29 else 28), endOfDay⟩
    rw [hmin]
  · intro nl today hv hbad
    have hv2 := of_decide_eq_true hv
    obtain ⟨hyLo, hyHi, _, _, _, _⟩ := hv2
    unfold parse_date
    rw [show normalize "in 1 year" = "in 1 year".data from by decide]
    rw [parseCore_inUnit nl _ _ 1 ("year".data) (by decide) (by decide) (by decide)
      (by decide) (by decide)]
    have hiu : inUnitDay today 1 ("year".data) = dayNum (yearsTarget today 1) := by
      unfold inUnitDay
      rw [if_neg (by decide), if_neg (by decide), if_neg (by decide), if_pos (by decide)]
    rw [hiu]
    unfold yearsTarget
    dsimp only
    rw [@wrap32_eq 1 (by norm_num) (by norm_num),
      @wrap32_eq (today.year + 1) (by omega) (by omega)]
    rw [if_neg (by simp [hbad])]

/-- Witness for C2: month clamping applied on 2024-01-31 (leap year), the
over-range month fallback applied at `n = 3121441`, and the year fallback
applied on 2024-02-29, with every hypothesis discharged by evaluation. -/
theorem c2_month_year_arithmetic_witness :
    (∃ y1 m1 : Int,
      monthsTarget ⟨2024, 1, 31⟩ 1 = ⟨y1, m1, min 31 (daysInMonth y1 m1)⟩ ∧
      1 ≤ m1 ∧ m1 ≤ 12 ∧ 12 * y1 + m1 = 12 * 2024 + 1 + 1 ∧
      validYmd y1 m1 (min 31 (daysInMonth y1 m1)) = true) ∧
    monthsTarget ⟨2024, 1, 31⟩ 3121441 = ⟨2024, 1, 31⟩ ∧
    parse_date (fun _ => none) ⟨2024, 2, 29⟩ "in 1 year" =
      .ok ⟨dayNum ⟨2024, 2, 29⟩, endOfDay⟩ :=
  ⟨c2_month_year_arithmetic.1 ⟨2024, 1, 31⟩ 1 (by decide) (by decide) (by decide),
   c2_month_year_arithmetic.2.2.1 ⟨2024, 1, 31⟩ 3121441 (by decide) (by decide)
     (by decide) (by decide),
   c2_month_year_arithmetic.2.2.2 (fun _ => none) ⟨2024, 2, 29⟩ (by decide) (by decide)⟩

/-! ## Claim C8 -/

theorem parseCore_error_inv (nl : List Char → Option LocalDT) (today : Ymd)
    (l : List Char) (e : List Char) (h : parseCore nl today l = .error e) :
    ¬ l = "today".data ∧ ¬ l = "tomorrow".data ∧ parseIso l = none ∧
    parseFixedFormats l = none ∧ parse_in_n_unit l = none ∧ nl l = none ∧
    weekdayIndex l = none ∧ e = errMsg l := by
  unfold parseCore at h
  by_cases h1 : l = "today".data
  · rw [if_pos h1] at h
    exact Except.noConfusion h
  rw [if_neg h1] at h
  by_cases h2 : l = "tomorrow".data
  · rw [if_pos h2] at h
    exact Except.noConfusion h
  rw [if_neg h2] at h
  rcases hIso : parseIso l with _ | c <;> rw [hIso] at h
  on_goal 2 =>
    replace h : (Except.ok ⟨dayNum c, endOfDay⟩ : Except (List Char) LocalDT) =
        .error e := h
    exact Except.noConfusion h
  rcases hFix : parseFixedFormats l with _ | c <;> rw [hFix] at h
  on_goal 2 =>
    replace h : (Except.ok ⟨dayNum c, endOfDay⟩ : Except (List Char) LocalDT) =
        .error e := h
    exact Except.noConfusion h
  rcases hIn : parse_in_n_unit l with _ | nu <;> rw [hIn] at h
  on_goal 2 =>
    replace h : (Except.ok ⟨inUnitDay today nu.1 nu.2, endOfDay⟩ :
        Except (List Char) LocalDT) = .error e := h
    exact Except.noConfusion h
  rcases hNl : nl l with _ | d <;> rw [hNl] at h
  on_goal 2 =>
    replace h : (Except.ok d : Except (List Char) LocalDT) = .error e := h
    exact Except.noConfusion h
  rcases hW : weekdayIndex l with _ | t <;> rw [hW] at h
  on_goal 2 =>
    replace h : (Except.ok ⟨dayNum today + daysAhead (weekdayOfDays (dayNum today)) t,
        endOfDay⟩ : Except (List Char) LocalDT) = .error e := h
    exact Except.noConfusion h
  replace h : (Except.error (errMsg l) : Except (List Char) LocalDT) = .error e := h
  exact ⟨h1, h2, rfl, rfl, rfl, rfl, rfl, (Except.error.inj h).symm⟩

/-- C8: every successful result of the keyword, ISO, fixed-numeric,
`in N unit`, or weekday-fallback stages has time-of-day exactly 23:59:59;
only the natural-language stage can produce a different time-of-day, and when
it is reached and succeeds its result is returned verbatim. -/
theorem c8_end_of_day :
    (∀ (nl : List Char → Option LocalDT) (today : Ymd) (s : String) (dt : LocalDT),
      parse_date nl today s = .ok dt →
      dt.time = endOfDay ∨ nl (normalize s) = some dt) ∧
    (∀ (nl : List Char → Option LocalDT) (today : Ymd) (s : String) (d : LocalDT),
      ¬ normalize s = "today".data → ¬ normalize s = "tomorrow".data →
      parseIso (normalize s) = none → parseFixedFormats (normalize s) = none →
      parse_in_n_unit (normalize s) = none → nl (normalize s) = some d →
      parse_date nl today s = .ok d) := by
  constructor
  · intro nl today s dt h
    unfold parse_date at h
    set l := normalize s with hl
    unfold parseCore at h
    by_cases h1 : l = "today".data
    · rw [if_pos h1] at h
      left
      rw [← Except.ok.inj h]
    rw [if_neg h1] at h
    by_cases h2 : l = "tomorrow".data
    · rw [if_pos h2] at h
      left
      rw [← Except.ok.inj h]
    rw [if_neg h2] at h
    rcases hIso : parseIso l with _ | c <;> rw [hIso] at h
    on_goal 2 =>
      replace h : (Except.ok ⟨dayNum c, endOfDay⟩ : Except (List Char) LocalDT) =
          .ok dt := h
      left
      rw [← Except.ok.inj h]
    rcases hFix : parseFixedFormats l with _ | c <;> rw [hFix] at h
    on_goal 2 =>
      replace h : (Except.ok ⟨dayNum c, endOfDay⟩ : Except (List Char) LocalDT) =
          .ok dt := h
      left
      rw [← Except.ok.inj h]
    rcases hIn : parse_in_n_unit l with _ | nu <;> rw [hIn] at h
    on_goal 2 =>
      replace h : (Except.ok ⟨inUnitDay today nu.1 nu.2, endOfDay⟩ :
          Except (List Char) LocalDT) = .ok dt := h
      left
      rw [← Except.ok.inj h]
    rcases hNl : nl l with _ | d <;> rw [hNl] at h
    on_goal 2 =>
      replace h : (Except.ok d : Except (List Char) LocalDT) = .ok dt := h
      right
      rw [← Except.ok.inj h]
    rcases hW : weekdayIndex l with _ | t <;> rw [hW] at h
    on_goal 2 =>
      replace h : (Except.ok ⟨dayNum today + daysAhead (weekdayOfDays (dayNum today)) t,
          endOfDay⟩ : Except (List Char) LocalDT) = .ok dt := h
      left
      rw [← Except.ok.inj h]
    replace h : (Except.error (errMsg l) : Except (List Char) LocalDT) = .ok dt := h
    exact Except.noConfusion h
  · intro nl today s d h1 h2 h3 h4 h5 h6
    unfold parse_date
    rw [parseCore_after5 nl today _ h1 h2 h3 h4 h5, h6]

/-- Witness for C8: the keyword stage at a concrete clock, and a verbatim
natural-language result with time-of-day 01:02:03. -/
theorem c8_end_of_day_witness :
    ((⟨dayNum ⟨2025, 10, 12⟩, endOfDay⟩ : LocalDT).time = endOfDay ∨
      (fun _ : List Char => (none : Option LocalDT)) (normalize "today") =
        some ⟨dayNum ⟨2025, 10, 12⟩, endOfDay⟩) ∧
    parse_date (fun _ => some ⟨7, ⟨1, 2, 3⟩⟩) ⟨2025, 10, 12⟩ "xyz" =
      .ok ⟨7, ⟨1, 2, 3⟩⟩ :=
  ⟨c8_end_of_day.1 (fun _ => none) ⟨2025, 10, 12⟩ "today" ⟨dayNum ⟨2025, 10, 12⟩, endOfDay⟩ rfl,
   c8_end_of_day.2 (fun _ => some ⟨7, ⟨1, 2, 3⟩⟩) ⟨2025, 10, 12⟩ "xyz" ⟨7, ⟨1, 2, 3⟩⟩
     (by decide) (by decide) (by decide) (by decide) (by decide) rfl⟩

/-! ## Claim C9 -/

/-- C9: `parse_date` fails — with a `DateParseError` whose message echoes the
offending (normalized) input and suggests example formats — exactly when every
resolution stage fails: the keywords, ISO, the five fixed numeric formats, the
`in N unit` stage, the natural-language grammar, and the weekday fallback;
whenever any stage succeeds no error is raised. -/
theorem c9_error_iff_all_fail (nl : List Char → Option LocalDT) (today : Ymd)
    (s : String) :
    ((∃ e, parse_date nl today s = .error e) ↔
      (¬ normalize s = "today".data ∧ ¬ normalize s = "tomorrow".data ∧
       parseIso (normalize s) = none ∧ parseFixedFormats (normalize s) = none ∧
       parse_in_n_unit (normalize s) = none ∧ nl (normalize s) = none ∧
       weekdayIndex (normalize s) = none)) ∧
    (∀ e, parse_date nl today s = .error e → e = errMsg (normalize s)) := by
  constructor
  · constructor
    · rintro ⟨e, he⟩
      unfold parse_date at he
      have inv := parseCore_error_inv nl today _ e he
      exact ⟨inv.1, inv.2.1, inv.2.2.1, inv.2.2.2.1, inv.2.2.2.2.1,
        inv.2.2.2.2.2.1, inv.2.2.2.2.2.2.1⟩
    · rintro ⟨h1, h2, h3, h4, h5, h6, h7⟩
      refine ⟨errMsg (normalize s), ?_⟩
      unfold parse_date
      rw [parseCore_after5 nl today _ h1 h2 h3 h4 h5, h6, h7]
  · intro e he
    unfold parse_date at he
    exact (parseCore_error_inv nl today _ e he).2.2.2.2.2.2.2

/-- Witness for C9: on the concrete input `"invalid"`, with every stage
failure discharged by evaluation, an error is raised. -/
theorem c9_error_iff_all_fail_witness :
    ∃ e, parse_date (fun _ => none) ⟨2025, 10, 12⟩ "invalid" = .error e :=
  (c9_error_iff_all_fail (fun _ => none) ⟨2025, 10, 12⟩ "invalid").1.mpr
    ⟨by decide, by decide, by decide, by decide, by decide, by decide, by decide⟩

/-! ## Claim C10 -/

theorem dropWhile_map_lower (t : List Char) :
    (t.map lowerChar).dropWhile isWs = (t.dropWhile isWs).map lowerChar := by
  induction t with
  | nil => rfl
  | cons a tl ih =>
    rw [List.map_cons, List.dropWhile_cons, List.dropWhile_cons, isWs_lowerChar]
    cases h : isWs a
    · simp
    · simpa using ih

theorem dropWhile_idem (p : Char → Bool) (l : List Char) :
    (l.dropWhile p).dropWhile p = l.dropWhile p := by
  induction l with
  | nil => rfl
  | cons a tl ih =>
    rw [List.dropWhile_cons]
    cases h : p a
    · simp only [Bool.false_eq_true, if_false]
      rw [List.dropWhile_cons, h]
      simp
    · simp only [if_true]
      exact ih

theorem head_dropWhile_false {p : Char → Bool} {l : List Char} {a : Char}
    {tl : List Char} (h : l.dropWhile p = a :: tl) : p a = false := by
  induction l with
  | nil => exact List.noConfusion h
  | cons b bt ih =>
    rw [List.dropWhile_cons] at h
    by_cases hb : p b = true
    · rw [if_pos hb] at h
      exact ih h
    · rw [if_neg hb] at h
      rw [← (List.cons.inj h).1]
      exact Bool.not_eq_true _ |>.mp hb

theorem dropWhile_append_last {p : Char → Bool} (l : List Char) (a : Char)
    (ha : p a = false) :
    ∃ D, (l ++ [a]).dropWhile p = D ++ [a] := by
  induction l with
  | nil =>
    refine ⟨[], ?_⟩
    rw [List.nil_append, List.dropWhile_cons, ha]
    simp
  | cons b bt ih =>
    rw [List.cons_append, List.dropWhile_cons]
    cases hb : p b
    · exact ⟨b :: bt, by simp⟩
    · simpa using ih

theorem trimChars_map_lower (t : List Char) :
    trimChars (t.map lowerChar) = (trimChars t).map lowerChar := by
  unfold trimChars
  rw [dropWhile_map_lower, ← List.map_reverse, dropWhile_map_lower, ← List.map_reverse]

theorem trimChars_idem (l : List Char) : trimChars (trimChars l) = trimChars l := by
  unfold trimChars
  cases hA : l.dropWhile isWs with
  | nil => rfl
  | cons a tl =>
    have ha : isWs a = false := head_dropWhile_false hA
    have hrev : (a :: tl).reverse = tl.reverse ++ [a] := by simp
    rw [hrev]
    obtain ⟨D, hD⟩ := dropWhile_append_last tl.reverse a ha
    rw [hD]
    have h1 : (D ++ [a]).reverse = a :: D.reverse := by
      rw [List.reverse_append]
      rfl
    rw [h1]
    rw [List.dropWhile_cons, ha]
    simp only [Bool.false_eq_true, if_false]
    have h2 : (a :: D.reverse).reverse = D ++ [a] := by simp
    rw [h2]
    rw [← hD, dropWhile_idem, hD]
    exact h1

theorem normalize_mk_normalize (s : String) :
    normalize (String.mk (normalize s)) = normalize s := by
  show (trimChars ((trimChars s.data).map lowerChar)).map lowerChar =
    (trimChars s.data).map lowerChar
  rw [trimChars_map_lower, trimChars_idem, List.map_map]
  exact List.map_congr_left (fun c _ => lowerChar_idem c)

/-- C10: `parse_date` returns the same result on `s` as on the lowercased,
whitespace-trimmed form of `s` — leading/trailing whitespace and letter case
never affect the outcome, because the normalization is applied internally. -/
theorem c10_normalization_invariance (nl : List Char → Option LocalDT)
    (today : Ymd) (s : String) :
    parse_date nl today s = parse_date nl today (String.mk (normalize s)) := by
  unfold parse_date
  rw [normalize_mk_normalize]

end TodoCli
